import Mathlib

/-!
Verification of the facet store, facet-filter parser, and result-enrichment
pipeline of the MeiliSearch fork (meilisearch-core/src/store/facets.rs,
meilisearch-http/src/routes/search.rs, meilisearch-http/src/helpers/meilisearch.rs),
as a shallow embedding in Lean.

Machine integers are modelled as `Nat` with explicit wrap-around (`% 2^16`)
where the Rust code performs `u16` arithmetic.  Fallible code returns
`Except`/`Option`.  Iteration over Rust `HashMap`s is modelled as iteration
over association lists; every property proved below is insensitive to the
iteration order.
-/

/-- Adjacent-duplicate removal: the model of Rust `Vec::dedup`, which removes
consecutive repeated elements.  (Rust keeps the first element of each run;
since the elements of a run are equal, keeping the last instead yields the
same list.) -/
def dedupAdj {α} [DecidableEq α] : List α → List α
  | [] => []
  | [x] => [x]
  | x :: y :: r => if x = y then dedupAdj (y :: r) else x :: dedupAdj (y :: r)

theorem dedupAdj_cons {α} [DecidableEq α] (y : α) :
    ∀ r : List α, ∃ t, dedupAdj (y :: r) = y :: t
  | [] => ⟨[], rfl⟩
  | z :: r' => by
    by_cases h : y = z
    · obtain ⟨t, ht⟩ := dedupAdj_cons z r'
      exact ⟨t, by simp [dedupAdj, h, ht]⟩
    · exact ⟨dedupAdj (z :: r'), by simp [dedupAdj, h]⟩

theorem chain'_lt_dedupAdj {α} [DecidableEq α] {le lt : α → α → Prop}
    (hstrict : ∀ a b, le a b → a ≠ b → lt a b) :
    ∀ l : List α, List.Chain' le l → List.Chain' lt (dedupAdj l)
  | [] , _ => by simp [dedupAdj]
  | [x], _ => by simp [dedupAdj]
  | x :: y :: r, h => by
    rw [List.chain'_cons] at h
    have ih := chain'_lt_dedupAdj hstrict (y :: r) h.2
    by_cases hxy : x = y
    · simpa [dedupAdj, hxy] using ih
    · obtain ⟨t, ht⟩ := dedupAdj_cons y r
      rw [show dedupAdj (x :: y :: r) = x :: dedupAdj (y :: r) by simp [dedupAdj, hxy], ht,
        List.chain'_cons]
      exact ⟨hstrict x y h.1 hxy, ht ▸ ih⟩

theorem mem_dedupAdj {α} [DecidableEq α] (a : α) :
    ∀ l : List α, a ∈ dedupAdj l ↔ a ∈ l
  | [] => Iff.rfl
  | [x] => Iff.rfl
  | x :: y :: r => by
    have ih := mem_dedupAdj a (y :: r)
    by_cases hxy : x = y
    · subst hxy
      rw [show dedupAdj (x :: x :: r) = dedupAdj (x :: r) by simp [dedupAdj], ih]
      simp only [List.mem_cons]
      tauto
    · simp only [dedupAdj, if_neg hxy, List.mem_cons, ih]

/-! ## Facet store  (meilisearch-core/src/store/facets.rs)

`FacetKey` in the source is a transparent `u64` wrapper, modelled as `Nat`.
The heed database `facets: heed::Database<FacetKey, CowSlice<DocumentId>>`
is modelled as an association list from encoded key bytes to stored
document-id sequences; `put` overwrites, `get` is a point lookup. -/

abbrev DocumentId := Nat

abbrev FacetKey := Nat

/-- Modelled from the spec: the `heed::BytesEncode` instance for `FacetKey` is
stubbed (`todo!()`) in the source; §4.1 requires a deterministic, injective
encoding of the key into fixed binary bytes.  We use the eight little-endian
bytes of the `u64`. -/
def facetKeyEncode (k : FacetKey) : List Nat :=
  [k % 256, k / 256 % 256, k / 256 ^ 2 % 256, k / 256 ^ 3 % 256,
   k / 256 ^ 4 % 256, k / 256 ^ 5 % 256, k / 256 ^ 6 % 256, k / 256 ^ 7 % 256]

/-- The facets table of the storage engine: encoded key bytes to value. -/
def FacetDb := List (List Nat × List DocumentId)

/-- `heed::Database::put`: overwrite the value stored under a key. -/
def dbPut (db : FacetDb) (key : List Nat) (v : List DocumentId) : FacetDb :=
  (key, v) :: (db.filter fun p => p.1 ≠ key)

/-- `heed::Database::get`: point lookup. -/
def dbGet (db : FacetDb) (key : List Nat) : Option (List DocumentId) :=
  (db.find? fun p => p.1 = key).map (·.2)

/-- `Facets::put_facets`: writes the full postings for a key
(`self.facets.put(writer, &facet_key, doc_ids)`). -/
def Facets.put_facets (db : FacetDb) (facet_key : FacetKey)
    (doc_ids : List DocumentId) : FacetDb :=
  dbPut db (facetKeyEncode facet_key) doc_ids

/-- `Facets::document_ids`: point lookup within the read transaction
(`self.facets.get(reader, &facet_key)`). -/
def Facets.document_ids (db : FacetDb) (facet_key : FacetKey) :
    Option (List DocumentId) :=
  dbGet db (facetKeyEncode facet_key)

/-- `Facets::update`: for each entry of the map, `document_ids.sort_unstable()`
then `Set::new_unchecked(&document_ids)` and `put_facets`.  Note: the source
sorts but does NOT deduplicate before wrapping in `Set::new_unchecked`.
`HashMap` iteration is modelled as list order. -/
def Facets.update (db : FacetDb) (facet_map : List (FacetKey × List DocumentId)) :
    FacetDb :=
  facet_map.foldl
    (fun db p => Facets.put_facets db p.1 (List.insertionSort (· ≤ ·) p.2)) db

/-- An `sdset::Set` built from an arbitrary id list, as in the claim's
`{3,1,2}`: the sorted, deduplicated sequence of the ids (this is how
`sdset::SetBuf::from_dirty` constructs a valid `Set`). -/
def mkSet (ids : List DocumentId) : List DocumentId :=
  dedupAdj (List.insertionSort (· ≤ ·) ids)

theorem pairwise_lt_mkSet (ids : List DocumentId) :
    List.Pairwise (· < ·) (mkSet ids) := by
  apply List.chain'_iff_pairwise.mp
  exact @chain'_lt_dedupAdj DocumentId _ (· ≤ ·) (· < ·)
    (fun a b hle hne => lt_of_le_of_ne hle hne) _
    (List.chain'_iff_pairwise.mpr (List.sorted_insertionSort _ ids))

theorem mem_mkSet (ids : List DocumentId) (x : DocumentId) :
    x ∈ mkSet ids ↔ x ∈ ids := by
  rw [mkSet, mem_dedupAdj]
  exact (List.perm_insertionSort _ ids).mem_iff

/-- C1: Facet store round-trip: for every facet key and every finite set of
document ids, `put_facets` with the set built from the ids followed by
`document_ids` on the same key returns exactly the ids as a sorted,
deduplicated sequence. -/
theorem facets_put_get_roundtrip (db : FacetDb) (key : FacetKey)
    (ids : List DocumentId) :
    Facets.document_ids (Facets.put_facets db key (mkSet ids)) key
        = some (mkSet ids)
    ∧ List.Pairwise (· < ·) (mkSet ids)
    ∧ ∀ x, x ∈ mkSet ids ↔ x ∈ ids := by
  refine ⟨?_, pairwise_lt_mkSet ids, mem_mkSet ids⟩
  simp [Facets.document_ids, Facets.put_facets, dbGet, dbPut, List.find?]

/-- C2 (code evaluation): `Facets::update` does not deduplicate: updating an
empty store with the single entry `0 ↦ [1, 1]` persists `[1, 1]`, a sequence
that still contains a duplicate document id. -/
theorem facets_update_keeps_duplicates :
    Facets.document_ids (Facets.update [] [(0, [1, 1])]) 0 = some [1, 1]
    ∧ ¬ List.Pairwise (· < ·) ([1, 1] : List DocumentId) := by
  constructor
  · rfl
  · decide

/-! ## Facet filter parser  (meilisearch-http/src/routes/search.rs)

`parse_facet_filters` receives the facet-filter expression after JSON
parsing (serde is an external collaborator), as a JSON value; string terms
are parsed by the inner function `parse_string`. -/

/-- A JSON value, as used both for the facet-filter expression and for
documents. -/
inductive JsonVal where
  | str : List Char → JsonVal
  | arr : List JsonVal → JsonVal
  | obj : List (List Char × JsonVal) → JsonVal
  | num : Int → JsonVal
  | bool : Bool → JsonVal
  | null : JsonVal

/-- Modelled from the spec: the schema external collaborator (§3): it
resolves field names to FieldIds, FieldIds back to names, and carries the
set of displayed field names. -/
structure SchemaL where
  fields : List (List Char × Nat)
  displayed : List (List Char)
deriving DecidableEq

/-- `schema.id(name)`: resolve a field name to a FieldId. -/
def SchemaL.id (s : SchemaL) (n : List Char) : Option Nat :=
  (s.fields.find? fun p => p.1 = n).map (·.2)

/-- `schema.name(field_id)`: resolve a FieldId back to a field name. -/
def SchemaL.name (s : SchemaL) (fid : Nat) : Option (List Char) :=
  (s.fields.find? fun p => p.2 = fid).map (·.1)

/-- `ResponseError::FacetExpressionParse` messages, one constructor per
distinct message produced by `parse_facet_filters`. -/
inductive FacetParseError where
  | unknownAttribute : List Char → FacetParseError
  | malformedTerm : List Char → FacetParseError
  | expectedString : JsonVal → FacetParseError
  | expectedStringOrArray : JsonVal → FacetParseError
  | expectedArray : JsonVal → FacetParseError

/-- Rust `str::split(":")` over the characters of a string: at least one
segment is always produced. -/
def splitOnC : List Char → List (List Char)
  | [] => [[]]
  | c :: rest =>
    if c = ':' then [] :: splitOnC rest
    else
      match splitOnC rest with
      | [] => [[c]]
      | s :: ss => (c :: s) :: ss

/-- The text before the first colon (the whole string when no colon). -/
def beforeColon (l : List Char) : List Char :=
  l.takeWhile fun c => c ≠ ':'

/-- The text after the last colon (the whole string when no colon). -/
def afterLastColon (l : List Char) : List Char :=
  (l.reverse.takeWhile fun c => c ≠ ':').reverse

/-- `parse_string` (the inner function of `parse_facet_filters`): split on
`":"`, take the first segment as field name (`s.next().unwrap()`), resolve
it in the schema or fail with the unknown-attribute message, then take the
last of the remaining segments as value (`s.last()`) or fail with the
malformed-term message. -/
def parse_string (string : List Char) (schema : SchemaL) :
    Except FacetParseError (Nat × List Char) :=
  let parts := splitOnC string
  let id_str := parts.headI
  match schema.id id_str with
  | none => .error (.unknownAttribute id_str)
  | some id =>
    match parts.tail.getLast? with
    | none => .error (.malformedTerm string)
    | some value => .ok (id, value)

/-- The elements of a nested array: each must be a string term. -/
def parseInnerTerms (schema : SchemaL) :
    List JsonVal → Except FacetParseError (List (Nat × List Char))
  | [] => .ok []
  | .str s :: rest => do
    let t ← parse_string s schema
    let r ← parseInnerTerms schema rest
    .ok (t :: r)
  | bad :: _ => .error (.expectedString bad)

/-- The top-level elements: a string term (AND-combined, `Either::Right`) or
a nested array of string terms (OR group, `Either::Left`). -/
def parseOuterTerms (schema : SchemaL) :
    List JsonVal →
      Except FacetParseError (List (Sum (List (Nat × List Char)) (Nat × List Char)))
  | [] => .ok []
  | .str s :: rest => do
    let t ← parse_string s schema
    let r ← parseOuterTerms schema rest
    .ok (.inr t :: r)
  | .arr vals :: rest => do
    let inner ← parseInnerTerms schema vals
    let r ← parseOuterTerms schema rest
    .ok (.inl inner :: r)
  | bad :: _ => .error (.expectedStringOrArray bad)

/-- `parse_facet_filters`, after JSON parsing: the top level must be an
array. -/
def parse_facet_filters (value : JsonVal) (schema : SchemaL) :
    Except FacetParseError (List (Sum (List (Nat × List Char)) (Nat × List Char))) :=
  match value with
  | .arr values => parseOuterTerms schema values
  | bad => .error (.expectedArray bad)

theorem splitOnC_cons : ∀ l : List Char, ∃ s ss, splitOnC l = s :: ss
  | [] => ⟨[], [], rfl⟩
  | c :: rest => by
    obtain ⟨s, ss, hs⟩ := splitOnC_cons rest
    by_cases hc : c = ':'
    · exact ⟨[], splitOnC rest, by simp [splitOnC, hc]⟩
    · exact ⟨c :: s, ss, by simp [splitOnC, hc, hs]⟩

theorem headI_splitOnC : ∀ l : List Char, (splitOnC l).headI = beforeColon l
  | [] => rfl
  | c :: rest => by
    by_cases hc : c = ':'
    · simp [splitOnC, hc, beforeColon]
    · obtain ⟨s, ss, hs⟩ := splitOnC_cons rest
      have ih := headI_splitOnC rest
      rw [hs] at ih
      simp only [List.headI] at ih
      simp [splitOnC, hc, hs, beforeColon, List.takeWhile_cons]
      simpa [beforeColon] using ih

theorem tail_splitOnC_eq_nil :
    ∀ l : List Char, ((splitOnC l).tail = [] ↔ ':' ∉ l)
  | [] => by simp [splitOnC]
  | c :: rest => by
    by_cases hc : c = ':'
    · subst hc
      obtain ⟨s, ss, hs⟩ := splitOnC_cons rest
      simp [splitOnC, hs]
    · obtain ⟨s, ss, hs⟩ := splitOnC_cons rest
      have ih := tail_splitOnC_eq_nil rest
      rw [hs] at ih
      simp only [List.tail_cons] at ih
      rw [show splitOnC (c :: rest) = (c :: s) :: ss by simp [splitOnC, hc, hs]]
      simp only [List.tail_cons]
      rw [ih]
      constructor
      · intro h hmem
        rcases List.mem_cons.mp hmem with he | hm
        · exact hc he.symm
        · exact h hm
      · intro h hm
        exact h (List.mem_cons_of_mem _ hm)

theorem takeWhile_append_single_false {α} (p : α → Bool) (y : α) (hy : p y = false) :
    ∀ xs : List α, (xs ++ [y]).takeWhile p = xs.takeWhile p
  | [] => by simp [List.takeWhile_cons, hy]
  | x :: xs => by
    cases hx : p x with
    | false => simp [List.takeWhile_cons, hx]
    | true =>
      simp only [List.cons_append, List.takeWhile_cons, hx, if_true]
      rw [takeWhile_append_single_false p y hy xs]

theorem takeWhile_append_of_mem_false {α} (p : α → Bool) :
    ∀ xs ys : List α, (∃ x ∈ xs, p x = false) →
      (xs ++ ys).takeWhile p = xs.takeWhile p
  | [], _, h => by simp at h
  | x :: xs, ys, h => by
    cases hx : p x with
    | false => simp [List.takeWhile_cons, hx]
    | true =>
      obtain ⟨z, hz, hpz⟩ := h
      rcases List.mem_cons.mp hz with rfl | hz'
      · rw [hx] at hpz; cases hpz
      · simp only [List.cons_append, List.takeWhile_cons, hx, if_true]
        rw [takeWhile_append_of_mem_false p xs ys ⟨z, hz', hpz⟩]

theorem afterLastColon_of_no_colon (l : List Char) (h : ':' ∉ l) :
    afterLastColon l = l := by
  unfold afterLastColon
  rw [List.takeWhile_eq_self_iff.mpr, List.reverse_reverse]
  intro x hx
  have : x ∈ l := List.mem_reverse.mp hx
  simp only [decide_eq_true_eq]
  exact fun he => h (he ▸ this)

theorem afterLastColon_cons_colon (rest : List Char) :
    afterLastColon (':' :: rest) = afterLastColon rest := by
  unfold afterLastColon
  rw [List.reverse_cons, takeWhile_append_single_false _ _ (by simp)]

theorem afterLastColon_cons_of_mem (c : Char) (rest : List Char) (h : ':' ∈ rest) :
    afterLastColon (c :: rest) = afterLastColon rest := by
  unfold afterLastColon
  rw [List.reverse_cons, takeWhile_append_of_mem_false]
  exact ⟨':', List.mem_reverse.mpr h, by simp⟩

theorem getLast?_splitOnC :
    ∀ l : List Char, (splitOnC l).getLast? = some (afterLastColon l)
  | [] => rfl
  | c :: rest => by
    have ih := getLast?_splitOnC rest
    by_cases hc : c = ':'
    · subst hc
      obtain ⟨s, ss, hs⟩ := splitOnC_cons rest
      rw [show splitOnC (':' :: rest) = [] :: splitOnC rest by simp [splitOnC],
        hs, List.getLast?_cons_cons, ← hs, ih, afterLastColon_cons_colon]
    · obtain ⟨s, ss, hs⟩ := splitOnC_cons rest
      rw [show splitOnC (c :: rest) = (c :: s) :: ss by simp [splitOnC, hc, hs]]
      cases ss with
      | nil =>
        have hnc : ':' ∉ rest := by
          have := tail_splitOnC_eq_nil rest
          rw [hs] at this
          exact this.mp rfl
        have hsr : s = rest := by
          rw [hs] at ih
          simpa [afterLastColon_of_no_colon rest hnc] using ih
        rw [show afterLastColon (c :: rest) = c :: rest by
          rw [afterLastColon_of_no_colon]
          intro hmem
          rcases List.mem_cons.mp hmem with he | hm
          · exact hc he.symm
          · exact hnc hm]
        simp [hsr]
      | cons z zs =>
        have hmem : ':' ∈ rest := by
          have := tail_splitOnC_eq_nil rest
          rw [hs] at this
          simp only [List.tail_cons] at this
          by_contra hn
          simp [hn] at this
        rw [List.getLast?_cons_cons, afterLastColon_cons_of_mem c rest hmem]
        rw [hs, List.getLast?_cons_cons] at ih
        exact ih

theorem getLast?_is_some {α} : ∀ (z : α) (zs : List α), ∃ v, (z :: zs).getLast? = some v
  | z, [] => ⟨z, rfl⟩
  | _, w :: ws => by
    obtain ⟨v, hv⟩ := getLast?_is_some w ws
    exact ⟨v, by rw [List.getLast?_cons_cons]; exact hv⟩

/-- C3 (amended): `parse_string` fails with the unknown-attribute error exactly
when the text before the first colon (the whole term when there is no colon)
does not resolve in the schema; it fails with the malformed-term error exactly
when the field name resolves but the term contains no colon; and it succeeds
exactly when the field name resolves and the term contains a colon (so a term
with a colon but empty value succeeds, with the empty value). -/
theorem parse_string_error_classification (schema : SchemaL) (term : List Char) :
    (parse_string term schema = .error (.unknownAttribute (beforeColon term))
        ↔ schema.id (beforeColon term) = none)
    ∧ (parse_string term schema = .error (.malformedTerm term)
        ↔ (schema.id (beforeColon term)).isSome = true ∧ ':' ∉ term)
    ∧ ((∃ r, parse_string term schema = .ok r)
        ↔ (schema.id (beforeColon term)).isSome = true ∧ ':' ∈ term) := by
  simp only [parse_string]
  rw [headI_splitOnC term]
  cases hid : schema.id (beforeColon term) with
  | none => simp
  | some fid =>
    by_cases hcol : ':' ∈ term
    · have htail : (splitOnC term).tail ≠ [] :=
        fun h => ((tail_splitOnC_eq_nil term).mp h) hcol
      cases ht : (splitOnC term).tail with
      | nil => exact absurd ht htail
      | cons z zs =>
        obtain ⟨v, hv⟩ := getLast?_is_some z zs
        rw [hv]
        simp [hcol]
    · have htail : (splitOnC term).tail = [] := (tail_splitOnC_eq_nil term).mpr hcol
      rw [htail]
      simp [hcol]

/-- A two-field schema with fields `a` and `b`, as in the spec's examples. -/
def schAB : SchemaL :=
  { fields := [("a".data, 0), ("b".data, 1)], displayed := ["a".data, "b".data] }

/-- C3 (counterexample): on `["a1"]` (no colon) against a schema with fields
`a`,`b`, the parser yields the unknown-attribute error for `a1`, which is not
a malformed-term error as the claim states. -/
theorem parse_a1_counterexample :
    parse_facet_filters (.arr [.str "a1".data]) schAB
        = .error (.unknownAttribute "a1".data)
    ∧ ∀ t, (FacetParseError.unknownAttribute "a1".data) ≠ .malformedTerm t :=
  ⟨rfl, fun _ h => FacetParseError.noConfusion h⟩

/-- C4 (amended): a term containing a colon whose field name (the text before
the first colon) resolves in the schema parses to that field id paired with
the text after the LAST colon (not the entire remainder after the first
colon). -/
theorem parse_string_first_last_split (schema : SchemaL) (term : List Char)
    (fid : Nat) (hcolon : ':' ∈ term)
    (hid : schema.id (beforeColon term) = some fid) :
    parse_string term schema = .ok (fid, afterLastColon term) := by
  simp only [parse_string]
  rw [headI_splitOnC term, hid]
  have htail : (splitOnC term).tail ≠ [] :=
    fun h => ((tail_splitOnC_eq_nil term).mp h) hcolon
  obtain ⟨s, ss, hs⟩ := splitOnC_cons term
  cases ss with
  | nil => rw [hs] at htail; simp at htail
  | cons z zs =>
    have h2 := getLast?_splitOnC term
    rw [hs, List.getLast?_cons_cons] at h2
    rw [hs]
    simp only [List.tail_cons]
    rw [h2]

theorem parse_string_first_last_split_witness :
    ':' ∈ "a:b:c".data
    ∧ schAB.id (beforeColon "a:b:c".data) = some 0
    ∧ parse_string "a:b:c".data schAB = .ok (0, "c".data) := by
  refine ⟨by decide, by decide, ?_⟩
  have h := parse_string_first_last_split schAB "a:b:c".data 0 (by decide) (by decide)
  rw [h]
  rfl

/-- C4 (counterexample): `"a:b:c"` with schema field `a` parses to value `"c"`
(the text after the last colon), not to `"b:c"` as the claim states. -/
theorem parse_abc_counterexample :
    parse_string "a:b:c".data schAB = .ok (0, "c".data)
    ∧ ("c".data : List Char) ≠ "b:c".data :=
  ⟨rfl, by decide⟩

/-! ## Cropping  (meilisearch-http/src/helpers/meilisearch.rs)

Text is modelled as its character list (the Rust code addresses text through
`text.chars()` throughout).  `Highlight` (from meilisearch-core) is a triple
of `u16` fields. -/

/-- Modelled from the spec: `meilisearch_tokenizer::is_cjk` (external crate,
§4.4): classifies CJK characters by their Unicode blocks. -/
def is_cjk (c : Char) : Bool :=
  let n := c.toNat
  decide ((0x1100 ≤ n ∧ n ≤ 0x11FF)
    ∨ (0x2E80 ≤ n ∧ n ≤ 0x2EFF)
    ∨ (0x2F00 ≤ n ∧ n ≤ 0x2FDF)
    ∨ (0x3000 ≤ n ∧ n ≤ 0x303F)
    ∨ (0x3040 ≤ n ∧ n ≤ 0x309F)
    ∨ (0x30A0 ≤ n ∧ n ≤ 0x30FF)
    ∨ (0x3100 ≤ n ∧ n ≤ 0x312F)
    ∨ (0x3130 ≤ n ∧ n ≤ 0x318F)
    ∨ (0x3200 ≤ n ∧ n ≤ 0x32FF)
    ∨ (0x3400 ≤ n ∧ n ≤ 0x4DBF)
    ∨ (0x4E00 ≤ n ∧ n ≤ 0x9FFF)
    ∨ (0xA960 ≤ n ∧ n ≤ 0xA97F)
    ∨ (0xAC00 ≤ n ∧ n ≤ 0xD7A3)
    ∨ (0xF900 ≤ n ∧ n ≤ 0xFAFF)
    ∨ (0xFF00 ≤ n ∧ n ≤ 0xFFEF))

/-- Rust `char::is_alphanumeric`.  Its full Unicode tables are part of the
Rust standard library (an external collaborator); the model is exact on the
ASCII range, which covers every concrete input below, and the general
theorems hold for any choice of the predicate. -/
def is_alphanumeric (c : Char) : Bool := c.isAlphanum

/-- `is_word_component` (closure in `aligned_crop`): an alphanumeric
character that is not CJK. -/
def is_word_component (c : Char) : Bool := is_alphanumeric c && !is_cjk c

/-- `word_end_index` (closure in `aligned_crop`): if the character just
before `index` is a word component, advance `index` past the remaining run of
word components.  (The source computes `index - 1` on a `usize`; every call
site passes `index ≥ 1`, so the `Nat` truncation at 0 is never exercised.) -/
def word_end_index (text : List Char) (index : Nat) : Nat :=
  if (text.get? (index - 1)).any is_word_component then
    index + ((text.drop index).takeWhile is_word_component).length
  else index

/-- `aligned_crop(text, match_index, context)`: the start index and length of
the crop window. -/
def aligned_crop (text : List Char) (match_index context : Nat) : Nat × Nat :=
  if context = 0 then
    -- count need to be at least 1 for cjk queries to return something
    (match_index, 1 + ((text.drop match_index).takeWhile is_word_component).length)
  else
    let start := match match_index - context with
      | 0 => 0
      | n + 1 => word_end_index text (n + 1)
    let e := word_end_index text (start + 2 * context)
    (start, e - start)

/-- `meilisearch_core::Highlight`: one match span, all three fields `u16` in
the source.  (The source's field name `attribute` is a Lean keyword, hence
`attr`.) -/
structure HighlightL where
  attr : Nat
  char_index : Nat
  char_length : Nat
deriving DecidableEq

/-- `match_.char_index - start as u16`: `u16` subtraction, modelled as the
wrapped difference modulo `2^16` (the release-mode behaviour; debug builds
panic when it underflows). -/
def sub16 (a b : Nat) : Nat :=
  (a % 65536 + (65536 - b % 65536)) % 65536

/-- Rust `char::is_whitespace`: the Unicode White_Space code points. -/
def is_rust_whitespace (c : Char) : Bool :=
  c.toNat ∈ [0x09, 0x0A, 0x0B, 0x0C, 0x0D, 0x20, 0x85, 0xA0, 0x1680,
    0x2000, 0x2001, 0x2002, 0x2003, 0x2004, 0x2005, 0x2006, 0x2007, 0x2008,
    0x2009, 0x200A, 0x2028, 0x2029, 0x202F, 0x205F, 0x3000]

/-- Rust `str::trim`. -/
def trimChars (l : List Char) : List Char :=
  ((l.dropWhile is_rust_whitespace).reverse.dropWhile is_rust_whitespace).reverse

/-- `crop_text(text, matches, context)`: anchor at the first match's char
index (or 0), crop via `aligned_crop`, trim, then `take_while` the matches
ending within `start + context * 2` and shift each by `-start` (`u16`). -/
def crop_text (text : List Char) (ms : List HighlightL) (context : Nat) :
    List Char × List HighlightL :=
  let char_index := (ms.head?.map (·.char_index)).getD 0
  let sc := aligned_crop text char_index context
  let text' := trimChars ((text.drop sc.1).take sc.2)
  let ms' :=
    (ms.takeWhile fun m => m.char_index + m.char_length ≤ sc.1 + context * 2).map
      fun m => { m with char_index := sub16 m.char_index sc.1 }
  (text', ms')

theorem takeWhile_get?_of_lt {α} (p : α → Bool) :
    ∀ (l : List α) (i : Nat), i < (l.takeWhile p).length →
      ∃ a, l.get? i = some a ∧ (l.takeWhile p).get? i = some a ∧ p a = true
  | [], i, h => by simp [List.takeWhile] at h
  | a :: l, i, h => by
    cases hp : p a with
    | false => rw [List.takeWhile_cons, hp] at h; simp at h
    | true =>
      rw [List.takeWhile_cons, hp] at h ⊢
      simp only [if_true] at h ⊢
      cases i with
      | zero => exact ⟨a, rfl, rfl, hp⟩
      | succ j =>
        simp only [List.length_cons, Nat.succ_lt_succ_iff] at h
        obtain ⟨b, hb1, hb2, hb3⟩ := takeWhile_get?_of_lt p l j h
        exact ⟨b, hb1, hb2, hb3⟩

theorem takeWhile_stop {α} (p : α → Bool) :
    ∀ l : List α, (l.takeWhile p).length = l.length
      ∨ ∃ a, l.get? (l.takeWhile p).length = some a ∧ p a = false
  | [] => .inl rfl
  | a :: l => by
    cases hp : p a with
    | false =>
      rw [List.takeWhile_cons, hp]
      exact .inr ⟨a, rfl, hp⟩
    | true =>
      rw [List.takeWhile_cons, hp]
      simp only [if_true]
      rcases takeWhile_stop p l with h | ⟨b, hb1, hb2⟩
      · exact .inl (by simp [h])
      · exact .inr ⟨b, by simpa using hb1, hb2⟩

/-- The anchor character index `crop_text` hands to `aligned_crop`: the first
match's char index, or 0 when there is no match. -/
def cropAnchor (ms : List HighlightL) : Nat :=
  (ms.head?.map (·.char_index)).getD 0

/-- C5 (amended): `crop_text` anchors the crop at the first match's character
index (or 0 when the list is empty), and its returned match list is the
longest PREFIX of the input list whose matches end at or before
`start + context * 2`, each with `char_index` shifted by `-start` (wrapping
`u16` subtraction); hence a match whose span lies inside the cropped window
but which follows a match extending past it is dropped as well. -/
theorem crop_text_characterization (text : List Char) (ms : List HighlightL)
    (context : Nat) :
    (crop_text text ms context).1
        = trimChars ((text.drop (aligned_crop text (cropAnchor ms) context).1).take
            (aligned_crop text (cropAnchor ms) context).2)
    ∧ (∀ i, i < (crop_text text ms context).2.length →
        ∃ m, ms.get? i = some m
          ∧ (crop_text text ms context).2.get? i
              = some { m with char_index := sub16 m.char_index (aligned_crop text (cropAnchor ms) context).1 }
          ∧ m.char_index + m.char_length
              ≤ (aligned_crop text (cropAnchor ms) context).1 + context * 2)
    ∧ ((crop_text text ms context).2.length = ms.length
        ∨ ∃ m, ms.get? (crop_text text ms context).2.length = some m
            ∧ (aligned_crop text (cropAnchor ms) context).1 + context * 2
                < m.char_index + m.char_length) := by
  refine ⟨rfl, ?_, ?_⟩
  · intro i hi
    simp only [crop_text, cropAnchor, List.length_map] at hi ⊢
    obtain ⟨m, h1, h2, h3⟩ := takeWhile_get?_of_lt _ ms i hi
    refine ⟨m, h1, ?_, by simpa using h3⟩
    rw [List.get?_map, h2]
    rfl
  · simp only [crop_text, cropAnchor, List.length_map]
    rcases takeWhile_stop
        (fun m => decide (m.char_index + m.char_length ≤
          (aligned_crop text ((ms.head?.map (·.char_index)).getD 0) context).1
            + context * 2)) ms with h | ⟨m, h1, h2⟩
    · exact .inl h
    · exact .inr ⟨m, h1, by simpa using h2⟩

/-- C5 (counterexample): with text `"ab cd ef gh"`, matches
`[(index 0, length 9), (index 5, length 2)]` (sorted by (char_index,
char_length)) and context 4, the crop window is `[0, 8)` and the second
match's span `[5, 7)` lies fully inside it, yet the returned match list is
empty: `take_while` stopped at the first match, so the result does not
contain every match whose span lies inside the cropped window. -/
theorem crop_text_take_while_counterexample :
    (crop_text "ab cd ef gh".data
        [⟨0, 0, 9⟩, ⟨0, 5, 2⟩] 4).2 = []
    ∧ aligned_crop "ab cd ef gh".data 0 4 = (0, 8)
    ∧ 0 ≤ 5 ∧ 5 + 2 ≤ 0 + 8 := by
  refine ⟨by rfl, by rfl, by decide, by decide⟩

/-- C9 (code evaluation): on the all-alphanumeric text `"aaaaaa"` with the
single in-range match `(char_index 4, char_length 1)` and context 2,
`aligned_crop` moves the crop start to 6, past the match's char index 4; the
match is still retained by `take_while` (4 + 1 ≤ 6 + 4), so the `u16`
subtraction `char_index - start` underflows and wraps to 65534. -/
theorem crop_text_underflow :
    aligned_crop "aaaaaa".data 4 2 = (6, 4)
    ∧ (crop_text "aaaaaa".data [⟨0, 4, 1⟩] 2).2 = [⟨0, 65534, 1⟩]
    ∧ 4 < 6 := by
  refine ⟨by rfl, by rfl, by decide⟩

/-! ## Match positions  (calculate_matches) -/

/-- `MatchPosition`: (start, length) in characters. -/
structure MatchPosition where
  start : Nat
  length : Nat
deriving DecidableEq

/-- The source's `impl Ord for MatchPosition`: by `start`, then by `length`
(non-strict version). -/
def mpLe (a b : MatchPosition) : Prop :=
  a.start < b.start ∨ (a.start = b.start ∧ a.length ≤ b.length)

/-- Strictly-less in the `MatchPosition` order. -/
def mpLt (a b : MatchPosition) : Prop :=
  a.start < b.start ∨ (a.start = b.start ∧ a.length < b.length)

instance : DecidableRel mpLe := fun _ _ => by unfold mpLe; infer_instance

instance : DecidableRel mpLt := fun _ _ => by unfold mpLt; infer_instance

instance : IsTotal MatchPosition mpLe where
  total a b := by
    rcases Nat.lt_trichotomy a.start b.start with h | h | h
    · exact .inl (.inl h)
    · rcases Nat.le_total a.length b.length with hl | hl
      · exact .inl (.inr ⟨h, hl⟩)
      · exact .inr (.inr ⟨h.symm, hl⟩)
    · exact .inr (.inl h)

instance : IsTrans MatchPosition mpLe where
  trans a b c hab hbc := by
    rcases hab with h | ⟨h1, h2⟩ <;> rcases hbc with h' | ⟨h1', h2'⟩
    · exact .inl (h.trans h')
    · exact .inl (h1' ▸ h)
    · exact .inl (h1 ▸ h')
    · exact .inr ⟨h1.trans h1', h2.trans h2'⟩

instance : IsTrans MatchPosition mpLt where
  trans a b c hab hbc := by
    rcases hab with h | ⟨h1, h2⟩ <;> rcases hbc with h' | ⟨h1', h2'⟩
    · exact .inl (h.trans h')
    · exact .inl (h1' ▸ h)
    · exact .inl (h1 ▸ h')
    · exact .inr ⟨h1.trans h1', h2.trans h2'⟩

theorem mpLe_ne_lt (a b : MatchPosition) (hab : mpLe a b) (hne : a ≠ b) :
    mpLt a b := by
  rcases hab with h | ⟨h1, h2⟩
  · exact .inl h
  · refine .inr ⟨h1, lt_of_le_of_ne h2 fun he => hne ?_⟩
    cases a; cases b; simp_all

/-- `val.sort_unstable(); val.dedup()` on a match-position list: the strictly
sorted list of its distinct elements. -/
def sortDedupMP (v : List MatchPosition) : List MatchPosition :=
  dedupAdj (List.insertionSort mpLe v)

theorem pairwise_mpLt_sortDedupMP (v : List MatchPosition) :
    List.Pairwise mpLt (sortDedupMP v) := by
  apply List.chain'_iff_pairwise.mp
  apply chain'_lt_dedupAdj mpLe_ne_lt
  exact List.chain'_iff_pairwise.mpr (List.sorted_insertionSort _ v)

/-- Association-list lookup (the model of `HashMap`/`IndexMap` lookup). -/
def lookupAL {β} (l : List (List Char × β)) (k : List Char) : Option β :=
  (l.find? fun p => p.1 = k).map (·.2)

/-- `matches_result.get_mut(attribute).push(...)` or first insertion: append
the position to the entry for `k`, creating the entry if absent. -/
def recordMatch : List (List Char × List MatchPosition) → List Char →
    MatchPosition → List (List Char × List MatchPosition)
  | [], k, pos => [(k, [pos])]
  | p :: acc, k, pos =>
    if p.1 = k then (p.1, p.2 ++ [pos]) :: acc else p :: recordMatch acc k pos

/-- The attributes-to-retrieve filter of `calculate_matches`: when present,
only its members pass. -/
def filterOk (attributes_to_retrieve : Option (List (List Char)))
    (a : List Char) : Bool :=
  match attributes_to_retrieve with
  | some f => f.contains a
  | none => true

/-- One loop iteration of `calculate_matches`: resolve the span's field id to
a name (skip if unknown), skip if filtered out or not displayed, otherwise
record the position under the name. -/
def collectStep (schema : SchemaL) (fopt : Option (List (List Char)))
    (acc : List (List Char × List MatchPosition)) (m : HighlightL) :
    List (List Char × List MatchPosition) :=
  match schema.name m.attr with
  | none => acc
  | some a =>
    if filterOk fopt a = false then acc
    else if schema.displayed.contains a = false then acc
    else recordMatch acc a ⟨m.char_index, m.char_length⟩

/-- `calculate_matches(matches, attributes_to_retrieve, schema)`: collect the
positions per field name, then `sort_unstable` and `dedup` each list. -/
def calculate_matches (ms : List HighlightL)
    (attributes_to_retrieve : Option (List (List Char))) (schema : SchemaL) :
    List (List Char × List MatchPosition) :=
  (ms.foldl (collectStep schema attributes_to_retrieve) []).map
    fun p => (p.1, sortDedupMP p.2)

theorem lookupAL_map_val {β γ} (f : β → γ) :
    ∀ (l : List (List Char × β)) (k : List Char),
      lookupAL (l.map fun p => (p.1, f p.2)) k = (lookupAL l k).map f
  | [], _ => rfl
  | p :: l, k => by
    have ih := lookupAL_map_val f l k
    by_cases h : p.1 = k
    · simp [lookupAL, List.find?, h]
    · simp only [lookupAL, List.map_cons, List.find?, decide_eq_false h] at ih ⊢
      exact ih

theorem lookupAL_recordMatch_isSome (k : List Char) (pos : MatchPosition)
    (field : List Char) :
    ∀ acc, (lookupAL (recordMatch acc k pos) field).isSome = true →
      field = k ∨ (lookupAL acc field).isSome = true
  | [] => by
    by_cases h : k = field
    · exact fun _ => .inl h.symm
    · simp [recordMatch, lookupAL, List.find?, h]
  | p :: acc => by
    by_cases hp : p.1 = k
    · rw [recordMatch, if_pos hp]
      by_cases hf : p.1 = field
      · simp [lookupAL, List.find?, hf]
      · simp only [lookupAL, List.find?, decide_eq_false hf]
        exact fun h => .inr h
    · rw [recordMatch, if_neg hp]
      by_cases hf : p.1 = field
      · simp [lookupAL, List.find?, hf]
      · simp only [lookupAL, List.find?, decide_eq_false hf]
        exact lookupAL_recordMatch_isSome k pos field acc

/-- The property every key of the collected map satisfies: it is displayed,
passes the attributes filter, and is the schema name of some field id. -/
def keyGuard (schema : SchemaL) (fopt : Option (List (List Char)))
    (field : List Char) : Prop :=
  schema.displayed.contains field = true
  ∧ filterOk fopt field = true
  ∧ ∃ fid, schema.name fid = some field

theorem collect_guard (schema : SchemaL) (fopt : Option (List (List Char))) :
    ∀ (ms : List HighlightL) (acc : List (List Char × List MatchPosition)),
      (∀ field, (lookupAL acc field).isSome = true → keyGuard schema fopt field) →
      ∀ field,
        (lookupAL (ms.foldl (collectStep schema fopt) acc) field).isSome = true →
        keyGuard schema fopt field
  | [], _, hacc, _ => hacc _
  | m :: ms, acc, hacc, field => by
    rw [List.foldl_cons]
    apply collect_guard schema fopt ms
    intro fld hfld
    cases hname : schema.name m.attr with
    | none =>
      rw [show collectStep schema fopt acc m = acc by simp [collectStep, hname]] at hfld
      exact hacc fld hfld
    | some a =>
      by_cases hfo : filterOk fopt a = false
      · rw [show collectStep schema fopt acc m = acc by
          simp [collectStep, hname, hfo]] at hfld
        exact hacc fld hfld
      · by_cases hdisp : schema.displayed.contains a = false
        · rw [show collectStep schema fopt acc m = acc by
            unfold collectStep
            rw [hname]
            show (if filterOk fopt a = false then acc
              else if schema.displayed.contains a = false then acc
              else recordMatch acc a ⟨m.char_index, m.char_length⟩) = acc
            rw [if_neg hfo, if_pos hdisp]] at hfld
          exact hacc fld hfld
        · rw [show collectStep schema fopt acc m
              = recordMatch acc a ⟨m.char_index, m.char_length⟩ by
            unfold collectStep
            rw [hname]
            show (if filterOk fopt a = false then acc
              else if schema.displayed.contains a = false then acc
              else recordMatch acc a ⟨m.char_index, m.char_length⟩)
                = recordMatch acc a ⟨m.char_index, m.char_length⟩
            rw [if_neg hfo, if_neg hdisp]] at hfld
          rcases lookupAL_recordMatch_isSome a _ fld acc hfld with rfl | h
          · exact ⟨Bool.not_eq_false _ ▸ hdisp, Bool.not_eq_false _ ▸ hfo,
              m.attr, hname⟩
          · exact hacc fld h

/-- C6: for every input match list, attributes filter and schema, every
per-field list `calculate_matches` returns is strictly sorted by
(start, length) — sorted with duplicates removed — and every field name in
the result resolves in the schema, is displayed, and passes the filter
(spans with unknown or non-displayable fields are silently dropped; the
function is total, so it never errors). -/
theorem calculate_matches_sorted_dedup (ms : List HighlightL)
    (fopt : Option (List (List Char))) (schema : SchemaL)
    (field : List Char) (l : List MatchPosition)
    (h : lookupAL (calculate_matches ms fopt schema) field = some l) :
    List.Pairwise mpLt l
    ∧ schema.displayed.contains field = true
    ∧ filterOk fopt field = true
    ∧ ∃ fid, schema.name fid = some field := by
  unfold calculate_matches at h
  rw [lookupAL_map_val] at h
  rcases hv : lookupAL (ms.foldl (collectStep schema fopt) []) field with _ | v
  · rw [hv] at h; cases h
  · rw [hv] at h
    have hl : l = sortDedupMP v := by cases h; rfl
    have hguard := collect_guard schema fopt ms []
      (by intro fld hfld; cases hfld) field (by rw [hv]; rfl)
    exact ⟨hl ▸ pairwise_mpLt_sortDedupMP v, hguard.1, hguard.2.1, hguard.2.2⟩

theorem calculate_matches_sorted_dedup_witness :
    lookupAL (calculate_matches [⟨0, 5, 2⟩, ⟨0, 1, 1⟩] none schAB) "a".data
        = some [⟨1, 1⟩, ⟨5, 2⟩]
    ∧ (List.Pairwise mpLt [⟨1, 1⟩, ⟨5, 2⟩]
      ∧ schAB.displayed.contains "a".data = true
      ∧ filterOk none "a".data = true
      ∧ ∃ fid, schAB.name fid = some "a".data) :=
  ⟨rfl, calculate_matches_sorted_dedup [⟨0, 5, 2⟩, ⟨0, 1, 1⟩] none schAB
    "a".data [⟨1, 1⟩, ⟨5, 2⟩] rfl⟩

/-! ## Highlighting  (calculate_highlights) -/

/-- `IndexMap::insert`: replace the value in place when the key exists
(keeping its position), otherwise append the new entry. -/
def insertIM {β} : List (List Char × β) → List Char → β → List (List Char × β)
  | [], k, v => [(k, v)]
  | p :: rest, k, v =>
    if p.1 = k then (k, v) :: rest else p :: insertIM rest k v

/-- Rust `value.get(i..j)` on the character vector: `none` unless
`i ≤ j ≤ value.len()`. -/
def sliceGet (value : List Char) (i j : Nat) : Option (List Char) :=
  if i ≤ j ∧ j ≤ value.length then some ((value.drop i).take (j - i)) else none

/-- One iteration of the inner match loop of `calculate_highlights`: state is
(highlighted_value, index); a match starting before the cursor, or a failing
slice (logged with `error!`), leaves the state unchanged. -/
def highlightStep (value : List Char) (acc : List Char × Nat)
    (m : MatchPosition) : List Char × Nat :=
  if acc.2 ≤ m.start then
    match sliceGet value acc.2 m.start,
        sliceGet value m.start (m.start + m.length) with
    | some before, some highlighted =>
      (acc.1 ++ before ++ "<em>".data ++ highlighted ++ "</em>".data,
        m.start + m.length)
    | _, _ => acc
  else acc

/-- The highlighted text of one field: run the match loop from an empty
buffer and cursor 0, then append the tail `value[index..]`. -/
def highlightValue (value : List Char) (ms : List MatchPosition) : List Char :=
  let r := ms.foldl (highlightStep value) ([], 0)
  r.1 ++ value.drop r.2

/-- One iteration of the outer loop of `calculate_highlights`: skip fields
not in `attributes_to_highlight` and fields whose document value is not
text. -/
def highlightFieldStep (document : List (List Char × JsonVal))
    (attributes_to_highlight : List (List Char))
    (acc : List (List Char × JsonVal)) (p : List Char × List MatchPosition) :
    List (List Char × JsonVal) :=
  if attributes_to_highlight.contains p.1 then
    match lookupAL document p.1 with
    | some (.str value) => insertIM acc p.1 (.str (highlightValue value p.2))
    | _ => acc
  else acc

/-- `calculate_highlights(document, matches, attributes_to_highlight)`:
start from a clone of the document and rewrite each matched text field. -/
def calculate_highlights (document : List (List Char × JsonVal))
    (ms : List (List Char × List MatchPosition))
    (attributes_to_highlight : List (List Char)) :
    List (List Char × JsonVal) :=
  ms.foldl (highlightFieldStep document attributes_to_highlight) document

/-- Specification-side renderer (the claim's wording): emit the unmatched gap
before each span, the span wrapped in `<em>`/`</em>`, and finally the tail —
every character outside the matched spans appears unchanged, in order. -/
def renderFrom (text : List Char) : Nat → List MatchPosition → List Char
  | i, [] => text.drop i
  | i, m :: rest =>
    (text.drop i).take (m.start - i) ++ "<em>".data
      ++ (text.drop m.start).take m.length ++ "</em>".data
      ++ renderFrom text (m.start + m.length) rest

theorem lookupAL_insertIM_self {β} (k : List Char) (v : β) :
    ∀ l, lookupAL (insertIM l k v) k = some v
  | [] => by simp [insertIM, lookupAL, List.find?]
  | p :: rest => by
    by_cases h : p.1 = k
    · simp [insertIM, h, lookupAL, List.find?]
    · simp only [insertIM, if_neg h, lookupAL, List.find?, decide_eq_false h]
      exact lookupAL_insertIM_self k v rest

theorem lookupAL_insertIM_ne {β} (k f : List Char) (hne : k ≠ f) (v : β) :
    ∀ l, lookupAL (insertIM l k v) f = lookupAL l f
  | [] => by simp [insertIM, lookupAL, List.find?, decide_eq_false hne]
  | p :: rest => by
    by_cases h : p.1 = k
    · have hpf : ¬p.1 = f := by rw [h]; exact hne
      simp [insertIM, h, lookupAL, List.find?, decide_eq_false hne,
        decide_eq_false hpf]
    · by_cases hpf : p.1 = f
      · simp only [insertIM, if_neg h, lookupAL, List.find?,
          decide_eq_true hpf]
      · simp only [insertIM, if_neg h, lookupAL, List.find?,
          decide_eq_false hpf]
        exact lookupAL_insertIM_ne k f hne v rest

theorem highlightFieldStep_cases (document : List (List Char × JsonVal))
    (attrs : List (List Char)) (acc : List (List Char × JsonVal))
    (p : List Char × List MatchPosition) :
    highlightFieldStep document attrs acc p = acc
    ∨ ∃ x, highlightFieldStep document attrs acc p = insertIM acc p.1 x := by
  unfold highlightFieldStep
  by_cases h : attrs.contains p.1
  · rw [if_pos h]
    cases hl : lookupAL document p.1 with
    | none => exact .inl rfl
    | some val =>
      cases val with
      | str value => exact .inr ⟨_, rfl⟩
      | arr a => exact .inl rfl
      | obj o => exact .inl rfl
      | num n => exact .inl rfl
      | bool b => exact .inl rfl
      | null => exact .inl rfl
  · rw [if_neg h]
    exact .inl rfl

theorem highlight_foldl_frame (document : List (List Char × JsonVal))
    (attrs : List (List Char)) (f : List Char) :
    ∀ (msl : List (List Char × List MatchPosition))
      (acc : List (List Char × JsonVal)),
      f ∉ msl.map Prod.fst →
      lookupAL (msl.foldl (highlightFieldStep document attrs) acc) f
        = lookupAL acc f
  | [], _, _ => rfl
  | p :: rest, acc, hf => by
    rw [List.foldl_cons]
    have hf1 : p.1 ≠ f := fun he => hf (by simp [he])
    have hf2 : f ∉ rest.map Prod.fst := fun h => hf (by simp [h])
    rw [highlight_foldl_frame document attrs f rest _ hf2]
    rcases highlightFieldStep_cases document attrs acc p with h | ⟨x, h⟩
    · rw [h]
    · rw [h, lookupAL_insertIM_ne p.1 f hf1]

theorem highlightFieldStep_at (document : List (List Char × JsonVal))
    (attrs : List (List Char)) (acc : List (List Char × JsonVal))
    (p : List Char × List MatchPosition)
    (hattr : attrs.contains p.1 = true) (value : List Char)
    (hdoc : lookupAL document p.1 = some (.str value)) :
    highlightFieldStep document attrs acc p
      = insertIM acc p.1 (.str (highlightValue value p.2)) := by
  unfold highlightFieldStep
  rw [if_pos hattr, hdoc]

theorem highlight_foldl_render (value : List Char) :
    ∀ (ms : List MatchPosition) (hv : List Char) (index : Nat),
      List.Chain' (fun a b => a.start + a.length ≤ b.start) ms →
      (∀ m ∈ ms, m.start + m.length ≤ value.length) →
      (∀ m, ms.head? = some m → index ≤ m.start) →
      (ms.foldl (highlightStep value) (hv, index)).1
          ++ value.drop (ms.foldl (highlightStep value) (hv, index)).2
        = hv ++ renderFrom value index ms
  | [], hv, index, _, _, _ => by simp [renderFrom]
  | m :: rest, hv, index, hchain, hrange, hhead => by
    have hidx : index ≤ m.start := hhead m rfl
    have hmr : m.start + m.length ≤ value.length := hrange m (by simp)
    have hs1 : sliceGet value index m.start
        = some ((value.drop index).take (m.start - index)) := by
      rw [sliceGet, if_pos ⟨hidx, le_trans (Nat.le_add_right _ _) hmr⟩]
    have hs2 : sliceGet value m.start (m.start + m.length)
        = some ((value.drop m.start).take m.length) := by
      rw [sliceGet, if_pos ⟨Nat.le_add_right _ _, hmr⟩]
      rw [Nat.add_sub_cancel_left]
    have hstep : highlightStep value (hv, index) m
        = (hv ++ (value.drop index).take (m.start - index) ++ "<em>".data
            ++ (value.drop m.start).take m.length ++ "</em>".data,
          m.start + m.length) := by
      simp only [highlightStep]
      rw [if_pos hidx, hs1, hs2]
    rw [List.chain'_cons'] at hchain
    rw [List.foldl_cons, hstep]
    rw [highlight_foldl_render value rest _ (m.start + m.length) hchain.2
      (fun m' hm' => hrange m' (List.mem_cons_of_mem _ hm'))
      (fun m' hm' => hchain.1 m' hm')]
    simp [renderFrom, List.append_assoc]

theorem calculate_highlights_go (document : List (List Char × JsonVal))
    (attrs : List (List Char)) (f text : List Char) (v : List MatchPosition)
    (hdoc : lookupAL document f = some (.str text))
    (hattr : attrs.contains f = true)
    (hsorted : List.Chain' (fun a b => a.start + a.length ≤ b.start) v)
    (hrange : ∀ m ∈ v, m.start + m.length ≤ text.length) :
    ∀ (msl : List (List Char × List MatchPosition))
      (acc : List (List Char × JsonVal)),
      (msl.map Prod.fst).Nodup →
      lookupAL msl f = some v →
      lookupAL (msl.foldl (highlightFieldStep document attrs) acc) f
        = some (.str (renderFrom text 0 v))
  | [], _, _, hm => by cases hm
  | p :: rest, acc, hnd, hm => by
    rw [List.foldl_cons]
    by_cases hp : p.1 = f
    · have hv : p.2 = v := by
        simp [lookupAL, List.find?, hp] at hm
        exact hm
      have hnotin : f ∉ rest.map Prod.fst := by
        rw [List.map_cons] at hnd
        exact hp ▸ (List.nodup_cons.mp hnd).1
      rw [highlight_foldl_frame document attrs f rest _ hnotin,
        highlightFieldStep_at document attrs acc p (by rw [hp]; exact hattr)
          text (by rw [hp]; exact hdoc),
        hp, hv, lookupAL_insertIM_self]
      have hr := highlight_foldl_render text v [] 0 hsorted hrange
        (fun m _ => Nat.zero_le _)
      rw [List.nil_append] at hr
      rw [show highlightValue text v = renderFrom text 0 v from hr]
    · have hm' : lookupAL rest f = some v := by
        simp only [lookupAL, List.find?, decide_eq_false hp] at hm
        exact hm
      have hnd' : (rest.map Prod.fst).Nodup := by
        rw [List.map_cons] at hnd
        exact (List.nodup_cons.mp hnd).2
      exact calculate_highlights_go document attrs f text v hdoc hattr hsorted
        hrange rest _ hnd' hm'

/-- C7 (amended): for every document whose field value is text and every
in-range, non-overlapping match list for that field given in ascending start
order, `calculate_highlights` wraps exactly the matched spans in
`<em>`/`</em>` and leaves every other character of the field identical (the
conclusion equates the field's output with the specification-side renderer
`renderFrom`). -/
theorem calculate_highlights_exact (document : List (List Char × JsonVal))
    (ms : List (List Char × List MatchPosition)) (attrs : List (List Char))
    (f text : List Char) (v : List MatchPosition)
    (hkeys : (ms.map Prod.fst).Nodup)
    (hm : lookupAL ms f = some v)
    (hattr : attrs.contains f = true)
    (hdoc : lookupAL document f = some (.str text))
    (hsorted : List.Chain' (fun a b => a.start + a.length ≤ b.start) v)
    (hrange : ∀ m ∈ v, m.start + m.length ≤ text.length) :
    lookupAL (calculate_highlights document ms attrs) f
      = some (.str (renderFrom text 0 v)) :=
  calculate_highlights_go document attrs f text v hdoc hattr hsorted hrange
    ms document hkeys hm

theorem calculate_highlights_exact_witness :
    lookupAL (calculate_highlights
        [("title".data, .str "Fondation (Isaac ASIMOV)".data)]
        [("title".data, [⟨0, 9⟩])] ["title".data]) "title".data
      = some (.str "<em>Fondation</em> (Isaac ASIMOV)".data) := by
  have h := calculate_highlights_exact
    [("title".data, .str "Fondation (Isaac ASIMOV)".data)]
    [("title".data, [⟨0, 9⟩])] ["title".data] "title".data
    "Fondation (Isaac ASIMOV)".data [⟨0, 9⟩]
    (by decide) rfl (by decide) rfl (List.chain'_singleton _) (by decide)
  exact h.trans (by rfl)

/-- C7 (counterexample): the matches `[(10,2), (0,2)]` on
`"0123456789abcd"` are in-range and non-overlapping, but given out of
ascending order: the code wraps only the span (10,2) and leaves (0,2)
unwrapped, so the output differs from wrapping exactly the matched spans
(the renderer on the spans in ascending order). -/
theorem calculate_highlights_unsorted_counterexample :
    lookupAL (calculate_highlights
        [("t".data, .str "0123456789abcd".data)]
        [("t".data, [⟨10, 2⟩, ⟨0, 2⟩])] ["t".data]) "t".data
      = some (.str "0123456789<em>ab</em>cd".data)
    ∧ "0123456789<em>ab</em>cd".data
        ≠ renderFrom "0123456789abcd".data 0 [⟨0, 2⟩, ⟨10, 2⟩] :=
  ⟨rfl, by decide⟩

/-! ## Ranking criteria  (SearchBuilder::get_criteria) -/

/-- `meilisearch_core::settings::RankingRule`. -/
inductive RankingRule where
  | Typo
  | Words
  | Proximity
  | Attribute
  | WordsPosition
  | Exactness
  | Asc (field : List Char)
  | Desc (field : List Char)
deriving DecidableEq

/-- A criterion pushed into the `CriteriaBuilder`. -/
inductive Criterion where
  | Typo
  | Words
  | Proximity
  | Attribute
  | WordsPosition
  | Exactness
  | SortByAttr (higherIsBetter : Bool) (field : List Char)
  | DocumentId
deriving DecidableEq

/-- Modelled from the spec: `SortByAttr::lower_is_better` /
`higher_is_better` (meilisearch-core criterion, not under src/): building a
sort-by-attribute criterion fails when the field cannot be resolved against
the ranked-value map (§4.7, §7).  The ranked map is modelled as the list of
ranked field names. -/
def sortByAttrMake (higherIsBetter : Bool) (ranked_map : List (List Char))
    (schema : SchemaL) (field : List Char) : Except Unit Criterion :=
  match schema.id field with
  | none => .error ()
  | some _ =>
    if ranked_map.contains field then .ok (.SortByAttr higherIsBetter field)
    else .error ()

/-- The loop of `get_criteria`: push a criterion per rule; a failing
`SortByAttr` is logged (`error!("Error during criteria builder; ...")`) and
skipped. -/
def buildCriteria (ranked_map : List (List Char)) (schema : SchemaL) :
    List RankingRule → List Criterion
  | [] => []
  | r :: rest =>
    match r with
    | .Typo => .Typo :: buildCriteria ranked_map schema rest
    | .Words => .Words :: buildCriteria ranked_map schema rest
    | .Proximity => .Proximity :: buildCriteria ranked_map schema rest
    | .Attribute => .Attribute :: buildCriteria ranked_map schema rest
    | .WordsPosition => .WordsPosition :: buildCriteria ranked_map schema rest
    | .Exactness => .Exactness :: buildCriteria ranked_map schema rest
    | .Asc field =>
      match sortByAttrMake false ranked_map schema field with
      | .ok c => c :: buildCriteria ranked_map schema rest
      | .error _ => buildCriteria ranked_map schema rest
    | .Desc field =>
      match sortByAttrMake true ranked_map schema field with
      | .ok c => c :: buildCriteria ranked_map schema rest
      | .error _ => buildCriteria ranked_map schema rest

/-- `SearchBuilder::get_criteria`: `None` when no ranking rules are
configured (the caller falls back to the index's default criteria), otherwise
the built chain with `DocumentId` pushed at the end. -/
def get_criteria (ranking_rules : Option (List RankingRule))
    (ranked_map : List (List Char)) (schema : SchemaL) :
    Option (List Criterion) :=
  match ranking_rules with
  | some rules => some (buildCriteria ranked_map schema rules ++ [.DocumentId])
  | none => none

/-- Specification-side per-rule mapping: `none` exactly for a
sort-by-attribute rule that fails to resolve. -/
def ruleToCriterion (ranked_map : List (List Char)) (schema : SchemaL) :
    RankingRule → Option Criterion
  | .Typo => some .Typo
  | .Words => some .Words
  | .Proximity => some .Proximity
  | .Attribute => some .Attribute
  | .WordsPosition => some .WordsPosition
  | .Exactness => some .Exactness
  | .Asc field => (sortByAttrMake false ranked_map schema field).toOption
  | .Desc field => (sortByAttrMake true ranked_map schema field).toOption

theorem buildCriteria_eq_filterMap (ranked_map : List (List Char))
    (schema : SchemaL) :
    ∀ rules, buildCriteria ranked_map schema rules
      = rules.filterMap (ruleToCriterion ranked_map schema)
  | [] => rfl
  | r :: rest => by
    have ih := buildCriteria_eq_filterMap ranked_map schema rest
    cases r with
    | Typo => simp [buildCriteria, ruleToCriterion, List.filterMap_cons, ih]
    | Words => simp [buildCriteria, ruleToCriterion, List.filterMap_cons, ih]
    | Proximity => simp [buildCriteria, ruleToCriterion, List.filterMap_cons, ih]
    | Attribute => simp [buildCriteria, ruleToCriterion, List.filterMap_cons, ih]
    | WordsPosition =>
      simp [buildCriteria, ruleToCriterion, List.filterMap_cons, ih]
    | Exactness => simp [buildCriteria, ruleToCriterion, List.filterMap_cons, ih]
    | Asc field =>
      cases hs : sortByAttrMake false ranked_map schema field with
      | ok c =>
        simp [buildCriteria, ruleToCriterion, List.filterMap_cons, hs,
          Except.toOption, ih]
      | error e =>
        simp [buildCriteria, ruleToCriterion, List.filterMap_cons, hs,
          Except.toOption, ih]
    | Desc field =>
      cases hs : sortByAttrMake true ranked_map schema field with
      | ok c =>
        simp [buildCriteria, ruleToCriterion, List.filterMap_cons, hs,
          Except.toOption, ih]
      | error e =>
        simp [buildCriteria, ruleToCriterion, List.filterMap_cons, hs,
          Except.toOption, ih]

/-- C8: for every configured ranking-rule list, `get_criteria` always returns
a criteria chain (it never fails): the chain maps each rule to its criterion
in order, omitting exactly the ascending/descending sort-by-attribute rules
whose field does not resolve against the ranked-value map, and ends with the
`DocumentId` criterion. -/
theorem get_criteria_skips_unresolved (rules : List RankingRule)
    (ranked_map : List (List Char)) (schema : SchemaL) :
    (get_criteria (some rules) ranked_map schema).isSome = true
    ∧ get_criteria (some rules) ranked_map schema
        = some (rules.filterMap (ruleToCriterion ranked_map schema)
            ++ [.DocumentId]) := by
  constructor
  · rfl
  · rw [get_criteria, buildCriteria_eq_filterMap]

/-! ## Search  (SearchBuilder::search) -/

/-- `sort_unstable_by_key(|m| (m.char_index, m.char_length))` order on
`Highlight`. -/
def hlLe (a b : HighlightL) : Prop :=
  a.char_index < b.char_index
  ∨ (a.char_index = b.char_index ∧ a.char_length ≤ b.char_length)

instance : DecidableRel hlLe := fun _ _ => by unfold hlLe; infer_instance

/-- `crop_document(document, matches, schema, fields)`: sort the matches by
(char_index, char_length); for each requested field (in `HashMap` iteration
order, modelled as list order) that resolves and whose value is text, crop
the text and replace that field's matches with the remapped ones. -/
def crop_document (document : List (List Char × JsonVal))
    (ms : List HighlightL) (schema : SchemaL)
    (fields : List (List Char × Nat)) :
    List (List Char × JsonVal) × List HighlightL :=
  fields.foldl
    (fun acc p =>
      match schema.id p.1 with
      | none => acc
      | some a =>
        let selected := acc.2.filter fun m => m.attr = a
        match lookupAL acc.1 p.1 with
        | some (.str original_text) =>
          let tc := crop_text original_text selected p.2
          (insertIM acc.1 p.1 (.str tc.1),
            (acc.2.filter fun m => m.attr ≠ a) ++ tc.2)
        | _ => acc)
    (document, List.insertionSort hlLe ms)

/-- `SearchBuilder`'s fields (the index handle is replaced by the
environment below; the source's `matches: bool` is named `matchesFlag`, as
`matches` is a Lean keyword). -/
structure SearchBuilderL where
  query : List Char
  offset : Nat
  limit : Nat
  attributes_to_crop : Option (List (List Char × Nat))
  attributes_to_retrieve : Option (List (List Char))
  attributes_to_highlight : Option (List (List Char))
  filters : Option (List Char)
  matchesFlag : Bool

/-- One ranked candidate document returned by the ranking engine: its id and
its match spans (`doc.highlights`). -/
structure DocL where
  id : Nat
  highlights : List HighlightL

/-- The `ResponseError` variants `search` can produce or propagate. -/
inductive ResponseErrorL where
  | internal (msg : List Char)
  | filterParse (msg : List Char)
  | searchDocuments (msg : List Char)
  | retrieveDocument (id : Nat) (msg : List Char)

/-- Modelled from the spec: the external collaborators `search` consults —
the main-store reads (schema, ranked map, ranking rules, distinct attribute),
`Filter::parse` for the generic boolean filter expression (meilisearch-core,
not under src/), the ranking engine's `query_builder.query` returning the
ranked candidate window with the total-hit estimate, the per-document store
fetch (its `Err`/`None` already mapped to the response error), and the
measured wall-clock time. -/
structure SearchEnv where
  schema : Except ResponseErrorL (Option SchemaL)
  ranked_map : Except ResponseErrorL (Option (List (List Char)))
  ranking_rules : Except ResponseErrorL (Option (List RankingRule))
  distinct_attribute : Except ResponseErrorL (Option (List Char))
  filterParse : List Char → SchemaL → Except ResponseErrorL Unit
  queryResult : Option (List Criterion) → Except ResponseErrorL (List DocL × Nat)
  getDocument : Nat → Option (List (List Char)) →
    Except ResponseErrorL (Option (List (List Char × JsonVal)))
  time_ms : Nat

/-- `SearchHit`. -/
structure SearchHitL where
  document : List (List Char × JsonVal)
  formatted : List (List Char × JsonVal)
  matches_info : Option (List (List Char × List MatchPosition))

/-- `SearchResult`. -/
structure SearchResultL where
  hits : List SearchHitL
  offset : Nat
  limit : Nat
  nb_hits : Nat
  exhaustive_nb_hits : Bool
  processing_time_ms : Nat
  query : List Char

/-- The per-document body of the hit loop in `search`. -/
def buildHits (b : SearchBuilderL) (env : SearchEnv) (schema : SchemaL)
    (all_formatted : List (List Char)) :
    List DocL → Except ResponseErrorL (List SearchHitL)
  | [] => .ok []
  | doc :: docs => do
    let fetched ← env.getDocument doc.id b.attributes_to_retrieve
    match fetched with
    | none =>
      .error (.internal "Impossible to retrieve the document; Corrupted data".data)
    | some document => do
      let formatted := document.filter fun p => all_formatted.contains p.1
      let ms := doc.highlights
      let fm :=
        match b.attributes_to_crop with
        | some fields => crop_document formatted ms schema fields
        | none => (formatted, ms)
      let formatted :=
        match b.attributes_to_highlight with
        | some attrs_hl =>
          calculate_highlights fm.1
            (calculate_matches fm.2 b.attributes_to_highlight schema) attrs_hl
        | none => fm.1
      let matches_info :=
        if b.matchesFlag then
          some (calculate_matches fm.2 b.attributes_to_retrieve schema)
        else none
      let document :=
        match b.attributes_to_retrieve with
        | some to_retrieve => document.filter fun p => to_retrieve.contains p.1
        | none => document
      let rest ← buildHits b env schema all_formatted docs
      .ok ({ document := document, formatted := formatted,
             matches_info := matches_info } :: rest)

/-- `SearchBuilder::search`: read schema and ranked map, build criteria,
install the filter and distinct predicates, run the ranked query (the oracle
receives the built criteria chain), and assemble the result envelope.  Each
`match` on an `Except` renders one `?` of the source. -/
def search (b : SearchBuilderL) (env : SearchEnv) :
    Except ResponseErrorL SearchResultL :=
  match env.schema with
  | .error e => .error e
  | .ok none => .error (.internal "missing schema".data)
  | .ok (some schema) =>
    match env.ranked_map with
    | .error e => .error e
    | .ok rankedOpt =>
      match env.ranking_rules with
      | .error e => .error e
      | .ok rrOpt =>
        match (match b.filters with
          | some expr => env.filterParse expr schema
          | none => .ok ()) with
        | .error e => .error e
        | .ok _ =>
          match env.distinct_attribute with
          | .error e => .error e
          | .ok _distinct =>
            match env.queryResult
                (get_criteria rrOpt (rankedOpt.getD []) schema) with
            | .error e => .error e
            | .ok qr =>
              match buildHits b env schema
                  (match b.attributes_to_retrieve with
                  | some _ =>
                    (b.attributes_to_highlight.getD [])
                      ++ ((b.attributes_to_crop.getD []).map Prod.fst)
                  | none =>
                    if b.attributes_to_highlight.isSome
                        || b.attributes_to_crop.isSome then
                      schema.displayed
                    else []) qr.1 with
              | .error e => .error e
              | .ok hits =>
                .ok { hits := hits, offset := b.offset, limit := b.limit,
                      nb_hits := qr.2, exhaustive_nb_hits := false,
                      processing_time_ms := env.time_ms, query := b.query }

/-- C10: every successful `search` returns a result whose
`exhaustive_nb_hits` is `false` and whose offset, limit and query are exactly
the builder's, whatever documents were found. -/
theorem search_result_envelope (b : SearchBuilderL) (env : SearchEnv)
    (r : SearchResultL) (h : search b env = .ok r) :
    r.exhaustive_nb_hits = false ∧ r.offset = b.offset ∧ r.limit = b.limit
    ∧ r.query = b.query := by
  unfold search at h
  repeat' split at h
  all_goals first
  | (injection h with h'
     subst h'
     exact ⟨rfl, rfl, rfl, rfl⟩)
  | injection h

/-- A concrete builder for the witness run. -/
def sbW : SearchBuilderL :=
  { query := "q".data, offset := 3, limit := 7, attributes_to_crop := none,
    attributes_to_retrieve := none, attributes_to_highlight := none,
    filters := none, matchesFlag := false }

/-- A concrete environment whose query returns no documents. -/
def envW : SearchEnv :=
  { schema := .ok (some schAB), ranked_map := .ok none,
    ranking_rules := .ok none, distinct_attribute := .ok none,
    filterParse := fun _ _ => .ok (), queryResult := fun _ => .ok ([], 0),
    getDocument := fun _ _ => .ok none, time_ms := 5 }

/-- The result of the witness run. -/
def resW : SearchResultL :=
  { hits := [], offset := 3, limit := 7, nb_hits := 0,
    exhaustive_nb_hits := false, processing_time_ms := 5, query := "q".data }

theorem search_result_envelope_witness :
    search sbW envW = .ok resW
    ∧ (resW.exhaustive_nb_hits = false ∧ resW.offset = sbW.offset
      ∧ resW.limit = sbW.limit ∧ resW.query = sbW.query) :=
  ⟨rfl, search_result_envelope sbW envW resW rfl⟩
